import Mathlib

/-!
Verification development for the `pyre-of-heroes` repository.

The repository resolves card names to `Card` records (via a cached remote
lookup), builds a directed graph over the resolved cards using a pluggable
compatibility policy (`BirthingPod`, `PyreOfHeroes`), and renders the graph
as a graphviz document.

This file shallowly embeds the relevant Rust functions:

* `cmc_f32_to_u8` (src/decklist.rs): the `f32` argument is modelled as a
  rational number (every finite `f32` is a rational; the comparisons
  `f > lower as f32`, `f < upper as f32` are exact because a `u16` converts
  exactly to `f32`, so the rational model agrees with the float code on every
  finite input; NaN is outside the model).  The Rust cast `f as u16` truncates
  toward zero and saturates to `[0, 65535]`; `lower + 1` is modelled with
  wrapping (release-mode) semantics.
* `card_name_trimmer` (src/decklist.rs): strings are modelled as `List Char`;
  `str::trim` uses the Unicode `White_Space` set, reproduced in `rustIsWs`.
  Rust's `take_while` consumes the first failing element from the underlying
  iterator, hence the `.drop 1` after `dropWhile`.
* `fetch_card` (src/decklist.rs): the cache is an association list, the remote
  lookup an explicit function argument; the returned `Bool` records whether
  the remote lookup was invoked, and panics become error values.
* the per-item closure of `parse` (src/decklist.rs): `processCard`.
* `PodGraph` with `add_card`, `nodes_that_can_reach`, `node_is_isolated`, and
  the text production of `to_img` (src/pyre_graph.rs).  The node/edge stores
  of `petgraph::Graph` are append-only vectors, modelled as lists; the
  iteration order of the `HashMap` of cost clusters in `to_img` is an explicit
  `order` parameter.
-/

/-- Embedding of `Card` (src/main.rs): `{ name: String, cmc: u8, types: Vec<String> }`.
`cmc` is modelled as `Nat`; every value the program constructs is `≤ 255`. -/
structure Card where
  name : String
  cmc : Nat
  types : List String
deriving DecidableEq, Repr

/-! ## `cmc_f32_to_u8` (src/decklist.rs lines 25–33) -/

/-- Embedding of `fn cmc_f32_to_u8(f: f32) -> Option<u8>`.
`let lower = f as u16` truncates toward zero saturating into `[0, 65535]`;
`let upper = lower + 1` wraps at `2^16`; the guard is
`f > lower as f32 && f < upper as f32`; the result is `lower.try_into().ok()`
(`u16 → u8`, `none` iff `lower > 255`). -/
def cmc_f32_to_u8 (f : ℚ) : Option Nat :=
  let lower : Nat := if f < 0 then 0 else min 65535 (Int.toNat ⌊f⌋)
  let upper : Nat := (lower + 1) % 65536
  if (lower : ℚ) < f ∧ f < (upper : ℚ) then
    none
  else if lower ≤ 255 then some lower else none

/-! ## `card_name_trimmer` (src/decklist.rs lines 13–23) -/

/-- The Unicode `White_Space` set used by Rust's `str::trim`. -/
def rustIsWs (c : Char) : Bool :=
  c ∈ ['\u0009', '\u000A', '\u000B', '\u000C', '\u000D', ' ', '\u0085',
    ' ', ' ', ' ', ' ', ' ', ' ', ' ',
    ' ', ' ', ' ', ' ', ' ', ' ', ' ',
    ' ', ' ', ' ', '　']

/-- Embedding of `str::trim`: drop leading and trailing `White_Space` characters. -/
def rustTrim (s : List Char) : List Char :=
  ((s.dropWhile rustIsWs).reverse.dropWhile rustIsWs).reverse

/-- Embedding of `fn card_name_trimmer(mut s: &str) -> &str`: trim; if the
first character is an ASCII digit, advance a char iterator with
`take_while(is_ascii_digit)` — which consumes the digit run *and* the first
non-digit character — and trim the rest.  `Char.isDigit` is exactly
`is_ascii_digit`. -/
def card_name_trimmer (s : List Char) : List Char :=
  let s := rustTrim s
  match s.head? with
  | some c =>
      if c.isDigit then rustTrim ((s.dropWhile Char.isDigit).drop 1) else s
  | none => s

/-! ## `PodGraph` and the compatibility policies (src/pyre_graph.rs) -/

/-- Embedding of `enum LinkDirection` (src/pyre_graph.rs lines 16–19). -/
inductive LinkDirection where
  | From : LinkDirection
  | To : LinkDirection
deriving DecidableEq, Repr

/-- Embedding of `struct Link` with fields `edge` and `dir` (lines 11–14). -/
structure Link (E : Type) where
  edge : E
  dir : LinkDirection
deriving DecidableEq, Repr

/-- Embedding of `impl PodKind for BirthingPod` (lines 37–52): compare the costs as `i16`
(exact, since both come from `u8`); a difference of `-1` links the new node
to the existing one, `1` links the existing node to the new one.  The edge
type `NoInfo` is modelled as `Unit`. -/
def BirthingPod.check (new existing : Card) : Option (Link Unit) :=
  let d : ℤ := (new.cmc : ℤ) - (existing.cmc : ℤ)
  if d = -1 then some ⟨(), LinkDirection.To⟩
  else if d = 1 then some ⟨(), LinkDirection.From⟩
  else none

/-- Embedding of `impl PodKind for PyreOfHeroes` (lines 56–68): find the first type of the
new card contained in the existing card's types; if present, gate on
`BirthingPod::check` and label the edge with that shared type. -/
def PyreOfHeroes.check (new existing : Card) : Option (Link String) :=
  match new.types.find? (fun t => existing.types.contains t) with
  | some ty => (BirthingPod.check new existing).map (fun l => ⟨ty, l.dir⟩)
  | none => none

/-- Embedding of `struct PodGraph` (lines 70–74): `petgraph::Graph` stores
nodes and edges in append-only vectors; a node index is its insertion
position, an edge is `(from, to, weight)`. -/
structure PodGraph (E : Type) where
  nodes : List Card
  edges : List (Nat × Nat × E)
deriving DecidableEq, Repr

/-- Embedding of `PodGraph::new` (lines 77–82). -/
def PodGraph.new {E : Type} : PodGraph E := ⟨[], []⟩

/-- The iterator chain
`g.node_indices().filter_map(|n| K::check(&c, &self.g[n]).map(|l| (n, l)))`
of `add_card`, with the index threaded explicitly. -/
def linksAux {E : Type} (check : Card → Card → Option (Link E)) (c : Card) :
    Nat → List Card → List (Nat × Link E)
  | _, [] => []
  | i, x :: xs =>
    match check c x with
    | some l => (i, l) :: linksAux check c (i + 1) xs
    | none => linksAux check c (i + 1) xs

/-- The edge `add_card` appends for one collected link `(existing_node, link)`:
`From` adds `existing_node → node`, `To` adds `node → existing_node`. -/
def toEdge {E : Type} (node : Nat) (nl : Nat × Link E) : Nat × Nat × E :=
  match nl.2.dir with
  | LinkDirection.From => (nl.1, node, nl.2.edge)
  | LinkDirection.To => (node, nl.1, nl.2.edge)

/-- Embedding of `PodGraph::add_card` (lines 84–97): collect the links against all
existing nodes, append the new node, then append one edge per link, directed
by the link's direction.  The policy `K` is passed as the `check` function. -/
def PodGraph.add_card {E : Type} (check : Card → Card → Option (Link E))
    (g : PodGraph E) (c : Card) : PodGraph E :=
  { nodes := g.nodes ++ [c],
    edges := g.edges ++ (linksAux check c 0 g.nodes).map (toEdge g.nodes.length) }

/-- Well-formedness: every edge endpoint is a valid node index.  This holds
for every graph `petgraph` can build (`add_edge` only accepts indices of
existing nodes) and is preserved by `add_card`. -/
def PodGraph.WF {E : Type} (g : PodGraph E) : Prop :=
  ∀ e ∈ g.edges, e.1 < g.nodes.length ∧ e.2.1 < g.nodes.length

instance {E : Type} (g : PodGraph E) : Decidable g.WF := by
  unfold PodGraph.WF; infer_instance

/-- Graphs reachable from `PodGraph::new` by `add_card` calls: exactly the
graphs the program ever constructs (main.rs folds `add_card` over the
entity stream starting from `new`). -/
inductive PodGraph.Built {E : Type} (check : Card → Card → Option (Link E)) :
    PodGraph E → Prop where
  | empty : PodGraph.Built check PodGraph.new
  | add (g : PodGraph E) (c : Card) :
      PodGraph.Built check g → PodGraph.Built check (g.add_card check c)

/-- Predicate: `e` joins `a` and `b` (in either direction). -/
def btwnP {E : Type} (a b : Nat) (e : Nat × Nat × E) : Bool :=
  (e.1 == a && e.2.1 == b) || (e.1 == b && e.2.1 == a)

/-- The edges of `g` joining `a` and `b`, in either direction. -/
def PodGraph.edgesBetween {E : Type} (g : PodGraph E) (a b : Nat) :
    List (Nat × Nat × E) :=
  g.edges.filter (btwnP a b)

/-- The edges `add_card` is expected to create between existing node `i` and
the new node (index `len`), as a function of the policy's answer. -/
def expectedEdges {E : Type} (len i : Nat) : Option (Link E) → List (Nat × Nat × E)
  | some l =>
    match l.dir with
    | LinkDirection.From => [(i, len, l.edge)]
    | LinkDirection.To => [(len, i, l.edge)]
  | none => []

/-! ## Reachability (`nodes_that_can_reach`, src/pyre_graph.rs lines 99–108) -/

/-- There is an edge from `a` to `b` in `g`. -/
def stepB {E : Type} (g : PodGraph E) (a b : Nat) : Bool :=
  g.edges.any (fun e => e.1 == a && e.2.1 == b)

/-- The edge relation of `g` as a proposition. -/
def Step {E : Type} (g : PodGraph E) (a b : Nat) : Prop :=
  stepB g a b = true

/-- Proposition: `a` has a directed path (of length ≥ 0) to `b` in `g`: the semantics of
`petgraph::algo::has_path_connecting(&g, a, b, ..)`. -/
def Reaches {E : Type} (g : PodGraph E) (a b : Nat) : Prop :=
  Relation.ReflTransGen (Step g) a b

/-- One backward step of the reachable-to set computation: the node indices
that are already in `s` or have an edge into a member of `s`. -/
def expand {E : Type} (g : PodGraph E) (s : List Nat) : List Nat :=
  (List.range g.nodes.length).filter
    (fun i => s.contains i || s.any (fun j => stepB g i j))

/-- Decision procedure for `Reaches g a b`: iterate `expand` from `{b}` as
many times as there are nodes.  `a == b` is checked separately, matching
`has_path_connecting`'s `a == b` short-circuit. -/
def hasPathB {E : Type} (g : PodGraph E) (a b : Nat) : Bool :=
  a == b || ((expand g)^[g.nodes.length] [b]).contains a

/-- Rust `String::contains(&str)`: substring containment. -/
def strContainsSub (hay sub : List Char) : Bool :=
  (List.range (hay.length + 1)).any (fun i => sub.isPrefixOf (hay.drop i))

/-- Embedding of `String::contains` lifted to `String`. -/
def strContains (hay sub : String) : Bool :=
  strContainsSub hay.toList sub.toList

/-- Embedding of `PodGraph::nodes_that_can_reach` (lines 99–108): the target is the first
node (in index order) whose name contains `name`; absent a target the result
is empty; otherwise all node indices with a directed path to the target. -/
def PodGraph.nodes_that_can_reach {E : Type} (g : PodGraph E) (name : String) :
    List Nat :=
  match (List.range g.nodes.length).find?
      (fun n => strContains (g.nodes.getD n ⟨"", 0, []⟩).name name) with
  | none => []
  | some target => (List.range g.nodes.length).filter (fun n => hasPathB g n target)

/-! ## Rendering (`to_img`, src/pyre_graph.rs lines 110–174) -/

/-- Embedding of `PodGraph::node_is_isolated` (lines 176–183): no edge has `index` as an
endpoint. -/
def PodGraph.node_is_isolated {E : Type} (g : PodGraph E) (index : Nat) : Bool :=
  g.edges.all (fun e => index != e.1 && index != e.2.1)

/-- The node indices whose card has cost `v`, in index order — the bucket the
`to_img` fold builds for the cost key `v`. -/
def nodesWithCmc {E : Type} (g : PodGraph E) (v : Nat) : List Nat :=
  (g.nodes.enum.filter (fun p => p.2.cmc == v)).map (fun p => p.1)

/-- The line `to_img` writes for one node:
`"        {} [ label = \"{}\" {style} {hi}]\n"`. -/
def nodeLine {E : Type} (g : PodGraph E) (highlight : Option (List Nat))
    (n : Nat) : String :=
  "        " ++ toString n ++ " [ label = \"" ++ (g.nodes.getD n ⟨"", 0, []⟩).name
    ++ "\" "
    ++ (if g.node_is_isolated n then "style=filled fillcolor=2" else "")
    ++ " "
    ++ (match highlight with
        | some h => if h.contains n then "style=filled fillcolor=11" else ""
        | none => "")
    ++ "]\n"

/-- The cluster `to_img` writes for one cost value `v`: the `subgraph` header,
one line per node of that cost, the cluster label, and the closing brace. -/
def clusterBlock {E : Type} (g : PodGraph E) (highlight : Option (List Nat))
    (v : Nat) : String :=
  "    subgraph cluster_" ++ toString v ++ " \x7b\n"
    ++ String.join ((nodesWithCmc g v).map (nodeLine g highlight))
    ++ "       label = \"" ++ toString v ++ "\"\n"
    ++ "   \x7d\n"

/-- The edge loop of `to_img` (lines 151–170): when highlighting, skip edges
whose endpoints are not both highlighted; assign each distinct edge label a
color index in first-seen order starting at 1 (`link_color` is the
accumulating label→color map, keyed by label equality); emit
`"{} -> {} [ label = \"{}\" color={c} fontcolor={c}]\n"` per kept edge. -/
def renderEdgesAux {E : Type} [DecidableEq E] (disp : E → String)
    (highlight : Option (List Nat)) :
    List (Nat × Nat × E) → List (E × Nat) → String
  | [], _ => ""
  | (a, b, ed) :: rest, colors =>
    let skip := match highlight with
      | some h => !(h.contains a && h.contains b)
      | none => false
    if skip then renderEdgesAux disp highlight rest colors
    else
      let found := (colors.find? (fun p => decide (p.1 = ed))).map (fun p => p.2)
      let color := match found with
        | some cidx => cidx
        | none => colors.length + 1
      let colors' := match found with
        | some _ => colors
        | none => colors ++ [(ed, colors.length + 1)]
      toString a ++ " -> " ++ toString b ++ " [ label = \"" ++ disp ed
        ++ "\" color=" ++ toString color ++ " fontcolor=" ++ toString color
        ++ "]\n" ++ renderEdgesAux disp highlight rest colors'

/-- The distinct cost values present in `g` — the key set of the `HashMap`
`to_img` folds the nodes into. -/
def cmcKeys {E : Type} (g : PodGraph E) : List Nat :=
  (g.nodes.map (fun c => c.cmc)).dedup

/-- Embedding of `PodGraph::to_img` (lines 110–174) as a text producer.  `order` is the
iteration order of the cost-keyed `HashMap` (a `std` `HashMap` iterates in an
unspecified, seed-dependent order; any permutation of `cmcKeys g` is a
possible order).  Everything else is deterministic: the header, the content
of each cluster, and the edge section with its first-seen color assignment. -/
def PodGraph.to_img {E : Type} [DecidableEq E] (g : PodGraph E)
    (disp : E → String) (draw_path_to : Option String) (order : List Nat) :
    String :=
  let highlight := draw_path_to.map (fun name => g.nodes_that_can_reach name)
  "digraph \x7b\n    node [colorscheme=spectral11]\nedge [colorscheme=dark28]\n"
    ++ String.join (order.map (fun v => clusterBlock g highlight v))
    ++ renderEdgesAux disp highlight g.edges []
    ++ "\x7d"

/-! ## The resolver (`fetch_card`, src/decklist.rs lines 69–99) -/

/-- The shape of a `scryfall::Card` as far as `fetch_card` reads it:
`name`, optional `type_line` and optional `cmc` (the `f32` again modelled as
a rational). -/
structure RawCard where
  name : String
  type_line : Option String
  cmc : Option ℚ

/-- The failure modes of `fetch_card`: the remote lookup's own error, and the
two `panic!` calls for a missing or fractional `cmc`. -/
inductive FetchError where
  | scryfallError : FetchError
  | missingCmc : String → FetchError
  | fractionalCmc : String → FetchError

/-- Embedding of `find_in_cache` (lines 54–57): the cache is a name→card map, modelled as
an association list queried front-to-back. -/
def find_in_cache (cache : List (String × Card)) (name : String) : Option Card :=
  (cache.find? (fun p => p.1 == name)).map (fun p => p.2)

/-- Embedding of `store_in_cache` (lines 59–67): `HashMap::insert`, modelled by prepending
(the newest binding shadows any older one). -/
def store_in_cache (cache : List (String × Card)) (name : String) (card : Card) :
    List (String × Card) :=
  (name, card) :: cache

/-- Embedding of `fetch_card` (lines 69–99).  The remote lookup is the explicit function
argument `remote` (`none` = lookup failure); the returned `Bool` records
whether the remote lookup was invoked; the third component is the cache
after the call.  A cache hit returns the cached card with no remote call;
otherwise the raw response's `type_line` is split on `' '` (empty list if
absent) and its `cmc` is coerced by `cmc_f32_to_u8`, the two panics becoming
errors; the built card is stored back into the cache. -/
def fetch_card (cache : List (String × Card)) (remote : String → Option RawCard)
    (name : String) : Except FetchError Card × Bool × List (String × Card) :=
  match find_in_cache cache name with
  | some card => (Except.ok card, false, cache)
  | none =>
    match remote name with
    | none => (Except.error FetchError.scryfallError, true, cache)
    | some raw =>
      let types := (raw.type_line.map (fun t => t.splitOn " ")).getD []
      match raw.cmc with
      | none => (Except.error (FetchError.missingCmc raw.name), true, cache)
      | some f =>
        match cmc_f32_to_u8 f with
        | none => (Except.error (FetchError.fractionalCmc raw.name), true, cache)
        | some cmc =>
          let card : Card := ⟨raw.name, cmc, types⟩
          (Except.ok card, true, store_in_cache cache name card)

/-- The per-item closure of `parse` (src/decklist.rs lines 107–115): a
resolved card is emitted iff its types contain `"Creature"`; on emission, if
the types contain the em-dash separator `"—"`, everything up to and including
its first occurrence is drained away. -/
def processCard (card : Card) : Option Card :=
  if card.types.any (fun t => t == "Creature") then
    some (match card.types.findIdx? (fun s => s == "—") with
      | some dash => { card with types := card.types.drop (dash + 1) }
      | none => card)
  else none


/-- Helper: `List.dropWhile` skips over a prefix on which the predicate holds. -/
theorem dropWhile_append_of_forall (p : Char → Bool) :
    ∀ (ds rest : List Char), (∀ d ∈ ds, p d = true) →
      List.dropWhile p (ds ++ rest) = List.dropWhile p rest := by
  intro ds
  induction ds with
  | nil => intro rest _; rfl
  | cons d ds ih =>
      intro rest h
      have hd : p d = true := h d (List.mem_cons_self d ds)
      simp only [List.cons_append, List.dropWhile_cons, hd]
      exact ih rest fun x hx => h x (List.mem_cons_of_mem d hx)

/-- C1 (counterexample): `cmc_f32_to_u8` is *not* the identity on every
integer input: `256.0` is an integer (not strictly between two consecutive
integers, as `⌊256⌋ = 256` witnesses) yet the function returns `none`
(the `u16 → u8` conversion fails), not `some 256`. -/
theorem cmc_f32_to_u8_not_identity_on_integers :
    cmc_f32_to_u8 256 = none ∧ (⌊(256 : ℚ)⌋ : ℚ) = 256 ∧
      cmc_f32_to_u8 256 ≠ some 256 := by
  have h1 : cmc_f32_to_u8 256 = none := by norm_num [cmc_f32_to_u8]
  exact ⟨h1, by norm_num, by rw [h1]; exact fun h => Option.noConfusion h⟩

/-- C1 (amended): on non-negative inputs, `cmc_f32_to_u8` returns `none`
exactly when the input is strictly between two consecutive integers
(`⌊f⌋ < f`) *or* its integer value exceeds 255; otherwise it returns
`some` of the integer value. -/
theorem cmc_f32_to_u8_nonneg_spec (f : ℚ) (h : 0 ≤ f) :
    cmc_f32_to_u8 f =
      if (⌊f⌋ : ℚ) < f ∨ 255 < ⌊f⌋ then none else some (Int.toNat ⌊f⌋) := by
  have hnlt : ¬ f < 0 := not_lt.mpr h
  have hfl0 : (0 : ℤ) ≤ ⌊f⌋ := Int.floor_nonneg.mpr h
  simp only [cmc_f32_to_u8, if_neg hnlt]
  rcases lt_or_le ⌊f⌋ 65535 with hlt | hge
  · have hmin : min 65535 (Int.toNat ⌊f⌋) = Int.toNat ⌊f⌋ :=
      min_eq_right (by omega)
    have hmod : (Int.toNat ⌊f⌋ + 1) % 65536 = Int.toNat ⌊f⌋ + 1 :=
      Nat.mod_eq_of_lt (by omega)
    have hcast : ((Int.toNat ⌊f⌋ : ℕ) : ℚ) = (⌊f⌋ : ℚ) := by
      rw [← Int.cast_natCast, Int.toNat_of_nonneg hfl0]
    rw [hmin, hmod]
    by_cases hc : (⌊f⌋ : ℚ) < f
    · rw [if_pos ⟨by rw [hcast]; exact hc, by
        push_cast
        rw [hcast]
        exact Int.lt_floor_add_one f⟩, if_pos (Or.inl hc)]
    · have hcond : ¬ (((Int.toNat ⌊f⌋ : ℕ) : ℚ) < f ∧
          f < ((Int.toNat ⌊f⌋ + 1 : ℕ) : ℚ)) := by
        intro hx
        rw [hcast] at hx
        exact hc hx.1
      rw [if_neg hcond]
      by_cases h255 : 255 < ⌊f⌋
      · rw [if_neg (by omega), if_pos (Or.inr h255)]
      · rw [if_pos (by omega), if_neg (by
          rintro (hx | hx)
          · exact hc hx
          · exact h255 hx)]
  · have hmin : min 65535 (Int.toNat ⌊f⌋) = 65535 :=
      min_eq_left (by omega)
    rw [hmin]
    have hcond : ¬ (((65535 : ℕ) : ℚ) < f ∧ f < (((65535 + 1) % 65536 : ℕ) : ℚ)) := by
      intro hx
      have : f < 0 := by
        have h0 : ((65535 + 1) % 65536 : ℕ) = 0 := by norm_num
        rw [h0] at hx
        exact_mod_cast hx.2
      exact hnlt this
    rw [if_neg hcond, if_neg (by norm_num), if_pos (Or.inr (by omega))]

/-- C1 (witness): the amended statement applied at `f = 3`. -/
theorem cmc_f32_to_u8_nonneg_spec_witness :
    (0 : ℚ) ≤ 3 ∧ cmc_f32_to_u8 3 =
      if (⌊(3 : ℚ)⌋ : ℚ) < 3 ∨ 255 < ⌊(3 : ℚ)⌋ then none
      else some (Int.toNat ⌊(3 : ℚ)⌋) :=
  ⟨by norm_num, cmc_f32_to_u8_nonneg_spec 3 (by norm_num)⟩

/-- C10: every strictly negative input yields `some 0`: the `f as u16` cast
saturates to `0`, and the strictly-between test `0 < f ∧ f < 1` fails. -/
theorem cmc_f32_to_u8_neg (f : ℚ) (h : f < 0) : cmc_f32_to_u8 f = some 0 := by
  simp only [cmc_f32_to_u8, if_pos h]
  rw [if_neg (by
    intro hx
    have h0 : ((0 : ℕ) : ℚ) < f := hx.1
    have : (0 : ℚ) < f := by exact_mod_cast h0
    linarith)]
  norm_num

/-- C10 (witness): the theorem applied at `f = -1/2`. -/
theorem cmc_f32_to_u8_neg_witness :
    (-1/2 : ℚ) < 0 ∧ cmc_f32_to_u8 (-1/2) = some 0 :=
  ⟨by norm_num, cmc_f32_to_u8_neg (-1/2) (by norm_num)⟩

/-- C2 (counterexample): on `"10x Something"`, `card_name_trimmer` produces
`"Something"`, not `"x Something"`: the first non-digit character `x` is
consumed by `take_while`, not kept. -/
theorem card_name_trimmer_drops_first_nondigit :
    card_name_trimmer "10x Something".toList = "Something".toList ∧
      card_name_trimmer "10x Something".toList ≠ "x Something".toList := by
  decide

/-- C2 (amended): after trimming surrounding whitespace, if the line starts
with a non-empty run of decimal digits followed by a non-digit character,
`card_name_trimmer` removes the digit run *and that following character* and
trims the remainder; a line not starting with a digit is returned trimmed and
otherwise unchanged; a line that is entirely digits yields the empty string. -/
theorem card_name_trimmer_spec :
    (∀ (l ds : List Char) (c : Char) (rest : List Char),
        rustTrim l = ds ++ c :: rest → ds ≠ [] →
        (∀ d ∈ ds, d.isDigit = true) → c.isDigit = false →
        card_name_trimmer l = rustTrim rest) ∧
    (∀ (l : List Char) (c : Char),
        (rustTrim l).head? = some c → c.isDigit = false →
        card_name_trimmer l = rustTrim l) ∧
    (∀ (l : List Char),
        rustTrim l ≠ [] → (∀ d ∈ rustTrim l, d.isDigit = true) →
        card_name_trimmer l = []) := by
  refine ⟨?_, ?_, ?_⟩
  · intro l ds c rest hl hne hds hc
    obtain ⟨d, ds', rfl⟩ : ∃ d ds', ds = d :: ds' := by
      cases ds with
      | nil => exact absurd rfl hne
      | cons d ds' => exact ⟨d, ds', rfl⟩
    have hd : d.isDigit = true := hds d (List.mem_cons_self d ds')
    simp only [card_name_trimmer, hl, List.cons_append, List.head?_cons, hd,
      if_pos]
    rw [← List.cons_append, dropWhile_append_of_forall _ _ _ hds,
      List.dropWhile_cons]
    simp [hc]
  · intro l c hhead hc
    simp only [card_name_trimmer, hhead, hc]
    simp
  · intro l hne hall
    have hdw : (rustTrim l).dropWhile Char.isDigit = [] :=
      List.dropWhile_eq_nil_iff.mpr hall
    obtain ⟨d, s', hcons⟩ : ∃ d s', rustTrim l = d :: s' := by
      cases h : rustTrim l with
      | nil => exact absurd h hne
      | cons d s' => exact ⟨d, s', rfl⟩
    have hd : d.isDigit = true := hall d (hcons ▸ List.mem_cons_self d s')
    simp only [card_name_trimmer, hcons, List.head?_cons, hd, if_pos]
    rw [← hcons, hdw]
    rfl

/-- C2 (witness): the amended statement applied to `"10x Something"`. -/
theorem card_name_trimmer_spec_witness :
    rustTrim "10x Something".toList = ['1', '0'] ++ 'x' :: " Something".toList ∧
      card_name_trimmer "10x Something".toList = rustTrim " Something".toList :=
  ⟨by decide,
    card_name_trimmer_spec.1 "10x Something".toList ['1', '0'] 'x'
      " Something".toList (by decide) (by decide) (by decide) (by decide)⟩

/-! ## Lemmas about `add_card` -/

/-- Lemma: `btwnP` unfolded to a proposition. -/
theorem btwnP_eq_true_iff {E : Type} (a b : Nat) (e : Nat × Nat × E) :
    btwnP a b e = true ↔ (e.1 = a ∧ e.2.1 = b) ∨ (e.1 = b ∧ e.2.1 = a) := by
  simp [btwnP]

/-- Every link `linksAux` collects names an index in `[s, s + xs.length)`. -/
theorem linksAux_mem_bound {E : Type} (check : Card → Card → Option (Link E))
    (c : Card) :
    ∀ (xs : List Card) (s : Nat) (nl : Nat × Link E),
      nl ∈ linksAux check c s xs → s ≤ nl.1 ∧ nl.1 < s + xs.length := by
  intro xs
  induction xs with
  | nil => intro s nl h; simp [linksAux] at h
  | cons x xs ih =>
      intro s nl h
      cases hcx : check c x with
      | some l =>
          rw [linksAux, hcx] at h
          rcases List.mem_cons.mp h with h1 | h'
          · subst h1; simp
          · have := ih (s + 1) nl h'
            simp only [List.length_cons]
            omega
      | none =>
          rw [linksAux, hcx] at h
          have := ih (s + 1) nl h
          simp only [List.length_cons]
          omega

/-- An edge produced by `toEdge` from a link at index `n` with `n ≠ i`,
`n ≠ len` and `i ≠ len` does not join `i` and `len`. -/
theorem btwnP_toEdge_false {E : Type} (i len : Nat) (nl : Nat × Link E)
    (hni : nl.1 ≠ i) (hnlen : nl.1 ≠ len) (hilen : i ≠ len) :
    btwnP i len (toEdge len nl) = false := by
  cases hd : nl.2.dir <;>
    simp [btwnP, toEdge, hd] <;> omega

/-- Filtering the new edges of `add_card` down to those joining node `s + k`
with the new node `len` leaves exactly the edges the policy dictates for the
pair. -/
theorem filter_toEdge_linksAux {E : Type} (check : Card → Card → Option (Link E))
    (c : Card) (len : Nat) :
    ∀ (xs : List Card) (s k : Nat) (hk : k < xs.length),
      s + xs.length ≤ len →
      ((linksAux check c s xs).map (toEdge len)).filter (btwnP (s + k) len) =
        expectedEdges len (s + k) (check c (xs.get ⟨k, hk⟩)) := by
  intro xs
  induction xs with
  | nil => intro s k hk _; exact absurd hk (by simp)
  | cons x xs ih =>
      intro s k hk hlen
      simp only [List.length_cons] at hlen
      have htail0 : ∀ j, j < s + 1 →
          ((linksAux check c (s + 1) xs).map (toEdge len)).filter (btwnP j len) = [] := by
        intro j hj
        rw [List.filter_eq_nil_iff]
        intro e he
        rcases List.mem_map.mp he with ⟨nl, hmem, rfl⟩
        have hb := linksAux_mem_bound check c xs (s + 1) nl hmem
        rw [btwnP_toEdge_false j len nl (by omega) (by omega) (by omega)]
        simp
      cases k with
      | zero =>
          have hget : (x :: xs).get ⟨0, hk⟩ = x := rfl
          rw [hget]
          cases hcx : check c x with
          | some l =>
              rw [linksAux, hcx, List.map_cons, List.filter_cons]
              have hpred : btwnP (s + 0) len (toEdge len (s, l)) = true := by
                cases hd : l.dir <;> simp [btwnP, toEdge, hd] <;> omega
              rw [hpred, if_pos rfl, htail0 (s + 0) (by omega)]
              cases hd : l.dir <;> simp [expectedEdges, toEdge, hd]
          | none =>
              rw [linksAux, hcx]
              exact htail0 (s + 0) (by omega)
      | succ k' =>
          have hk' : k' < xs.length := by
            simp only [List.length_cons] at hk
            omega
          have hget : (x :: xs).get ⟨k' + 1, hk⟩ = xs.get ⟨k', hk'⟩ := rfl
          rw [hget]
          have hrec := ih (s + 1) k' hk' (by omega)
          have harith : s + 1 + k' = s + (k' + 1) := by omega
          rw [harith] at hrec
          cases hcx : check c x with
          | some l =>
              rw [linksAux, hcx, List.map_cons, List.filter_cons]
              have hpred : btwnP (s + (k' + 1)) len (toEdge len (s, l)) = false :=
                btwnP_toEdge_false _ _ _ (by omega) (by omega) (by omega)
              rw [hpred]
              simpa using hrec
          | none =>
              rw [linksAux, hcx]
              exact hrec

/-- The edges joining an existing node `i` and the new node after `add_card`
are exactly what the policy dictates for the pair `(c, nodes[i])`. -/
theorem edgesBetween_add_card {E : Type} (check : Card → Card → Option (Link E))
    (g : PodGraph E) (c : Card) (i : Nat) (hWF : g.WF) (hi : i < g.nodes.length) :
    (g.add_card check c).edgesBetween i g.nodes.length =
      expectedEdges g.nodes.length i (check c (g.nodes.get ⟨i, hi⟩)) := by
  unfold PodGraph.add_card PodGraph.edgesBetween
  simp only
  rw [List.filter_append]
  have hold : g.edges.filter (btwnP i g.nodes.length) = [] := by
    rw [List.filter_eq_nil_iff]
    intro e he
    have hb := hWF e he
    simp only [btwnP_eq_true_iff]
    omega
  rw [hold, List.nil_append]
  have := filter_toEdge_linksAux check c g.nodes.length g.nodes 0 i hi (by omega)
  simpa using this

/-- Lemma: `add_card` preserves well-formedness. -/
theorem PodGraph.WF_add_card {E : Type} (check : Card → Card → Option (Link E))
    (g : PodGraph E) (c : Card) (h : g.WF) : (g.add_card check c).WF := by
  intro e he
  simp only [PodGraph.add_card, List.length_append, List.length_cons,
    List.length_nil] at *
  rcases List.mem_append.mp he with h1 | h2
  · have := h e h1
    omega
  · rcases List.mem_map.mp h2 with ⟨nl, hmem, rfl⟩
    have hb := linksAux_mem_bound check c g.nodes 0 nl hmem
    cases hd : nl.2.dir <;> simp [toEdge, hd] <;> omega

/-- Every graph the program builds is well-formed. -/
theorem PodGraph.Built.wf {E : Type} {check : Card → Card → Option (Link E)}
    {g : PodGraph E} (h : g.Built check) : g.WF := by
  induction h with
  | empty => intro e he; simp [PodGraph.new] at he
  | add g c hb ih => exact PodGraph.WF_add_card check g c ih

/-- Inversion for `BirthingPod.check`: a link is produced only when the costs
differ by exactly one. -/
theorem BirthingPod.check_adj {new existing : Card} {l : Link Unit}
    (h : BirthingPod.check new existing = some l) :
    (new.cmc : ℤ) - (existing.cmc : ℤ) = 1 ∨
      (new.cmc : ℤ) - (existing.cmc : ℤ) = -1 := by
  simp only [BirthingPod.check] at h
  split_ifs at h with h1 h2
  · exact Or.inr h1
  · exact Or.inl h2

/-- Inversion for `PyreOfHeroes.check`: a link carries the first type of the
new card found among the existing card's types, and requires a
`BirthingPod.check` link whose direction it inherits. -/
theorem PyreOfHeroes.check_inv {new existing : Card} {l : Link String}
    (h : PyreOfHeroes.check new existing = some l) :
    ∃ lb : Link Unit,
      new.types.find? (fun t => existing.types.contains t) = some l.edge ∧
      BirthingPod.check new existing = some lb ∧ l.dir = lb.dir := by
  unfold PyreOfHeroes.check at h
  cases hf : new.types.find? (fun t => existing.types.contains t) with
  | none => rw [hf] at h; cases h
  | some ty =>
      rw [hf] at h
      cases hb : BirthingPod.check new existing with
      | none => rw [hb] at h; cases h
      | some lb =>
          rw [hb] at h
          simp only [Option.map_some'] at h
          obtain rfl : l = ⟨ty, lb.dir⟩ := (Option.some_inj.mp h).symm
          exact ⟨lb, by simpa using hf, rfl, rfl⟩

/-- C3: under the `BirthingPod` policy, inserting a card whose cost exceeds
an existing node's cost by exactly 1 creates exactly one edge from that
existing node to the new node; if the cost difference is neither `1` nor
`-1`, no edge joins the pair. -/
theorem birthing_pod_edges (g : PodGraph Unit) (c : Card) (i : Nat)
    (hWF : g.WF) (hi : i < g.nodes.length) :
    (c.cmc = (g.nodes.get ⟨i, hi⟩).cmc + 1 →
      (g.add_card BirthingPod.check c).edgesBetween i g.nodes.length =
        [(i, g.nodes.length, ())]) ∧
    ((c.cmc : ℤ) - ((g.nodes.get ⟨i, hi⟩).cmc : ℤ) ≠ 1 →
     (c.cmc : ℤ) - ((g.nodes.get ⟨i, hi⟩).cmc : ℤ) ≠ -1 →
      (g.add_card BirthingPod.check c).edgesBetween i g.nodes.length = []) := by
  have hkey := edgesBetween_add_card BirthingPod.check g c i hWF hi
  constructor
  · intro hc
    have hd1 : (c.cmc : ℤ) - ((g.nodes.get ⟨i, hi⟩).cmc : ℤ) = 1 := by
      rw [hc]; push_cast; ring
    have hch : BirthingPod.check c (g.nodes.get ⟨i, hi⟩) =
        some ⟨(), LinkDirection.From⟩ := by
      simp only [BirthingPod.check]
      rw [if_neg (by omega), if_pos hd1]
    rw [hkey, hch]
    rfl
  · intro h1 hm1
    have hch : BirthingPod.check c (g.nodes.get ⟨i, hi⟩) = none := by
      simp only [BirthingPod.check]
      rw [if_neg hm1, if_neg h1]
    rw [hkey, hch]
    rfl

/-- C3 (witness): inserting a cost-3 card after a cost-2 card under the
`BirthingPod` policy creates exactly the edge `0 → 1`. -/
theorem birthing_pod_edges_witness :
    (⟨"B", 3, []⟩ : Card).cmc = (⟨"A", 2, []⟩ : Card).cmc + 1 ∧
    ((PodGraph.new.add_card BirthingPod.check ⟨"A", 2, []⟩).add_card
        BirthingPod.check ⟨"B", 3, []⟩).edgesBetween 0 1 = [(0, 1, ())] := by
  refine ⟨rfl, ?_⟩
  have h := (birthing_pod_edges (PodGraph.new.add_card BirthingPod.check ⟨"A", 2, []⟩)
    ⟨"B", 3, []⟩ 0 (by decide) (by decide)).1 (by decide)
  exact h

/-- C4: under the `PyreOfHeroes` policy, a pair sharing no type tag gets no
edge (even if the costs are adjacent), and every edge joining an existing
node with the new node is labeled with the first type of the new card found
among the existing card's types and requires cost adjacency. -/
theorem pyre_of_heroes_edges (g : PodGraph String) (c : Card) (i : Nat)
    (hWF : g.WF) (hi : i < g.nodes.length) :
    ((∀ t ∈ c.types, t ∉ (g.nodes.get ⟨i, hi⟩).types) →
      (g.add_card PyreOfHeroes.check c).edgesBetween i g.nodes.length = []) ∧
    (∀ e ∈ (g.add_card PyreOfHeroes.check c).edgesBetween i g.nodes.length,
      c.types.find? (fun t => (g.nodes.get ⟨i, hi⟩).types.contains t) =
        some e.2.2 ∧
      ((c.cmc : ℤ) - ((g.nodes.get ⟨i, hi⟩).cmc : ℤ) = 1 ∨
       (c.cmc : ℤ) - ((g.nodes.get ⟨i, hi⟩).cmc : ℤ) = -1)) := by
  have hkey := edgesBetween_add_card PyreOfHeroes.check g c i hWF hi
  constructor
  · intro hno
    have hfind : c.types.find? (fun t => (g.nodes.get ⟨i, hi⟩).types.contains t) =
        none := by
      apply List.find?_eq_none.mpr
      intro t ht
      intro hcont
      exact hno t ht (List.elem_iff.mp hcont)
    have hch : PyreOfHeroes.check c (g.nodes.get ⟨i, hi⟩) = none := by
      unfold PyreOfHeroes.check
      rw [hfind]
    rw [hkey, hch]
    rfl
  · intro e he
    rw [hkey] at he
    cases hch : PyreOfHeroes.check c (g.nodes.get ⟨i, hi⟩) with
    | none => rw [hch] at he; cases he
    | some l =>
        rw [hch] at he
        obtain ⟨lb, hfind, hbp, hdir⟩ := PyreOfHeroes.check_inv hch
        have hadj := BirthingPod.check_adj hbp
        refine ⟨?_, hadj⟩
        cases hd : l.dir with
        | From =>
            rw [expectedEdges, hd] at he
            rcases List.mem_singleton.mp he with rfl
            exact hfind
        | To =>
            rw [expectedEdges, hd] at he
            rcases List.mem_singleton.mp he with rfl
            exact hfind

/-- C4 (witness): two goblins with adjacent costs get exactly one edge
labeled `"Creature"` (the first shared type), and the theorem's
characterization holds at that edge. -/
theorem pyre_of_heroes_edges_witness :
    ((PodGraph.new.add_card PyreOfHeroes.check
        ⟨"Goblin Matron", 2, ["Creature", "Goblin"]⟩).add_card PyreOfHeroes.check
        ⟨"Goblin Chieftain", 3, ["Creature", "Goblin"]⟩).edgesBetween 0 1 =
      [(0, 1, "Creature")] ∧
    ((["Creature", "Goblin"] : List String).find?
        (fun t => (["Creature", "Goblin"] : List String).contains t) =
      some "Creature" ∧
     ((3 : ℤ) - (2 : ℤ) = 1 ∨ (3 : ℤ) - (2 : ℤ) = -1)) := by
  constructor
  · decide
  · have h := (pyre_of_heroes_edges
      (PodGraph.new.add_card PyreOfHeroes.check
        ⟨"Goblin Matron", 2, ["Creature", "Goblin"]⟩)
      ⟨"Goblin Chieftain", 3, ["Creature", "Goblin"]⟩ 0 (by decide) (by decide)).2
      (0, 1, "Creature") (by decide)
    exact h

/-- C9: no graph built by the program (any policy, any insertion sequence)
contains a self-loop: every edge joins two distinct node indices, because
each insertion only evaluates the policy against the nodes already present. -/
theorem built_no_self_loop {E : Type} (check : Card → Card → Option (Link E))
    (g : PodGraph E) (h : g.Built check) : ∀ e ∈ g.edges, e.1 ≠ e.2.1 := by
  induction h with
  | empty => intro e he; simp [PodGraph.new] at he
  | add g c hb ih =>
      intro e he
      simp only [PodGraph.add_card] at he
      rcases List.mem_append.mp he with h1 | h2
      · exact ih e h1
      · rcases List.mem_map.mp h2 with ⟨nl, hmem, rfl⟩
        have hbnd := linksAux_mem_bound check c g.nodes 0 nl hmem
        cases hd : nl.2.dir <;> simp [toEdge, hd] <;> omega

/-- C9 (witness): the theorem applied to the one edge of a two-card
`BirthingPod` graph. -/
theorem built_no_self_loop_witness :
    (0, 1, ()) ∈ ((PodGraph.new.add_card BirthingPod.check ⟨"A", 2, []⟩).add_card
        BirthingPod.check ⟨"B", 3, []⟩).edges ∧ (0 : Nat) ≠ 1 :=
  ⟨by decide,
    built_no_self_loop BirthingPod.check
      ((PodGraph.new.add_card BirthingPod.check ⟨"A", 2, []⟩).add_card
        BirthingPod.check ⟨"B", 3, []⟩)
      (PodGraph.Built.add (PodGraph.new.add_card BirthingPod.check ⟨"A", 2, []⟩)
        ⟨"B", 3, []⟩
        (PodGraph.Built.add PodGraph.new ⟨"A", 2, []⟩ PodGraph.Built.empty))
      (0, 1, ()) (by decide)⟩

/-- A freshly stored entry is found by an immediate lookup of the same name. -/
theorem find_in_cache_store (cache : List (String × Card)) (name : String)
    (card : Card) :
    find_in_cache (store_in_cache cache name card) name = some card := by
  simp [find_in_cache, store_in_cache, List.find?]

/-- C5: a cache hit returns the cached card immediately — no remote call, no
cache change; moreover after any successful resolution the cache maps the
name to the returned card, so an immediate second call is a pure cache hit
returning the identical card with no remote call. -/
theorem fetch_card_cache_hit :
    (∀ (cache : List (String × Card)) (remote : String → Option RawCard)
        (name : String) (card : Card),
        find_in_cache cache name = some card →
        fetch_card cache remote name = (Except.ok card, false, cache)) ∧
    (∀ (cache : List (String × Card)) (remote : String → Option RawCard)
        (name : String) (card : Card) (called : Bool)
        (cache' : List (String × Card)),
        fetch_card cache remote name = (Except.ok card, called, cache') →
        fetch_card cache' remote name = (Except.ok card, false, cache')) := by
  constructor
  · intro cache remote name card h
    unfold fetch_card
    rw [h]
  · intro cache remote name card called cache' h
    cases hl : find_in_cache cache name with
    | some c0 =>
        simp only [fetch_card, hl] at h
        injection h with h1 h23
        injection h23 with h2 h3
        injection h1 with h1
        subst h1
        subst h3
        simp only [fetch_card, hl]
    | none =>
        cases hr : remote name with
        | none =>
            simp only [fetch_card, hl, hr] at h
            injection h with h1 h23
            exact Except.noConfusion h1
        | some raw =>
            cases hc : raw.cmc with
            | none =>
                simp only [fetch_card, hl, hr, hc] at h
                injection h with h1 h23
                exact Except.noConfusion h1
            | some f =>
                cases hcm : cmc_f32_to_u8 f with
                | none =>
                    simp only [fetch_card, hl, hr, hc, hcm] at h
                    injection h with h1 h23
                    exact Except.noConfusion h1
                | some cmc =>
                    simp only [fetch_card, hl, hr, hc, hcm] at h
                    injection h with h1 h23
                    injection h23 with h2 h3
                    injection h1 with h1
                    subst h1
                    subst h3
                    simp only [fetch_card, find_in_cache_store]

/-- C5 (witness): the hit branch applied to a one-entry cache. -/
theorem fetch_card_cache_hit_witness :
    find_in_cache [("Forest", ⟨"Forest", 0, ["Land"]⟩)] "Forest" =
      some ⟨"Forest", 0, ["Land"]⟩ ∧
    fetch_card [("Forest", ⟨"Forest", 0, ["Land"]⟩)] (fun _ => none) "Forest" =
      (Except.ok ⟨"Forest", 0, ["Land"]⟩, false,
        [("Forest", ⟨"Forest", 0, ["Land"]⟩)]) :=
  ⟨by decide, fetch_card_cache_hit.1 _ _ _ _ (by decide)⟩

/-- C7: a resolved card is emitted iff its types contain `"Creature"`, and an
emitted card whose types contain the em-dash separator keeps its name and
cost but loses the separator and everything before it. -/
theorem processCard_spec (c : Card) :
    ((processCard c).isSome ↔ "Creature" ∈ c.types) ∧
    (∀ (c' : Card) (d : Nat), processCard c = some c' →
      c.types.findIdx? (fun s => s == "—") = some d →
      c'.name = c.name ∧ c'.cmc = c.cmc ∧ c'.types = c.types.drop (d + 1)) := by
  constructor
  · by_cases hcr : c.types.any (fun t => t == "Creature")
    · simp only [processCard, if_pos hcr, Option.isSome_some, true_iff]
      rcases List.any_eq_true.mp hcr with ⟨t, ht, hbeq⟩
      have := eq_of_beq hbeq
      subst this
      exact ht
    · simp only [processCard, if_neg hcr]
      refine ⟨fun hfalse => absurd hfalse (by simp),
        fun hmem => absurd (List.any_eq_true.mpr ⟨_, hmem, by simp⟩) hcr⟩
  · intro c' d hpc hidx
    by_cases hcr : c.types.any (fun t => t == "Creature")
    · simp only [processCard, if_pos hcr, hidx] at hpc
      obtain rfl : ({ c with types := c.types.drop (d + 1) } : Card) = c' :=
        Option.some_inj.mp hpc
      exact ⟨rfl, rfl, rfl⟩
    · simp only [processCard, if_neg hcr] at hpc
      cases hpc

/-- C7 (witness): the trimming branch applied to a legendary creature whose
type line contains the em-dash separator at index 2. -/
theorem processCard_spec_witness :
    (⟨"Sigarda", 4, ["Angel"]⟩ : Card).name = "Sigarda" ∧
    (⟨"Sigarda", 4, ["Angel"]⟩ : Card).cmc = 4 ∧
    (⟨"Sigarda", 4, ["Angel"]⟩ : Card).types =
      (["Legendary", "Creature", "—", "Angel"] : List String).drop (2 + 1) :=
  (processCard_spec ⟨"Sigarda", 4, ["Legendary", "Creature", "—", "Angel"]⟩).2
    ⟨"Sigarda", 4, ["Angel"]⟩ 2 (by decide) (by decide)

/-! ## Lemmas about reachability -/

/-- Membership in one `expand` step. -/
theorem mem_expand_iff {E : Type} (g : PodGraph E) (s : List Nat) (i : Nat) :
    i ∈ expand g s ↔
      i < g.nodes.length ∧ (i ∈ s ∨ ∃ j ∈ s, stepB g i j = true) := by
  simp [expand, List.mem_filter, List.mem_range, List.any_eq_true,
    List.elem_iff, List.contains]

/-- Lemma: `expand` is monotone in the seed set (as sets). -/
theorem expand_mono {E : Type} (g : PodGraph E) (s s' : List Nat)
    (h : ∀ x, x ∈ s → x ∈ s') : ∀ x, x ∈ expand g s → x ∈ expand g s' := by
  intro x hx
  rw [mem_expand_iff] at hx ⊢
  obtain ⟨h1, h2 | ⟨j, hj, hstep⟩⟩ := hx
  · exact ⟨h1, Or.inl (h x h2)⟩
  · exact ⟨h1, Or.inr ⟨j, h j hj, hstep⟩⟩

/-- Lemma: `expand` only depends on the seed set's membership. -/
theorem expand_congr {E : Type} (g : PodGraph E) (s s' : List Nat)
    (h : ∀ x, x ∈ s ↔ x ∈ s') : ∀ x, x ∈ expand g s ↔ x ∈ expand g s' :=
  fun x => ⟨expand_mono g s s' (fun y hy => (h y).mp hy) x,
    expand_mono g s' s (fun y hy => (h y).mpr hy) x⟩

/-- The iterates of `expand` grow (given an in-range target). -/
theorem iter_subset_succ {E : Type} (g : PodGraph E) (t : Nat)
    (ht : t < g.nodes.length) :
    ∀ k x, x ∈ (expand g)^[k] [t] → x ∈ (expand g)^[k + 1] [t] := by
  intro k
  induction k with
  | zero =>
      intro x hx
      simp only [Function.iterate_zero, id] at hx
      rcases List.mem_singleton.mp hx with rfl
      simp only [Function.iterate_succ_apply', Function.iterate_zero, id]
      rw [mem_expand_iff]
      exact ⟨ht, Or.inl (List.mem_singleton.mpr rfl)⟩
  | succ k ih =>
      intro x hx
      rw [Function.iterate_succ_apply'] at hx
      rw [Function.iterate_succ_apply']
      exact expand_mono g _ _ ih x hx

/-- Monotonicity of the iterates in the step count. -/
theorem iter_subset_le {E : Type} (g : PodGraph E) (t : Nat)
    (ht : t < g.nodes.length) :
    ∀ k m, k ≤ m → ∀ x, x ∈ (expand g)^[k] [t] → x ∈ (expand g)^[m] [t] := by
  intro k m hkm
  induction hkm with
  | refl => exact fun x hx => hx
  | step hm ih =>
      intro x hx
      exact iter_subset_succ g t ht _ x (ih x hx)

/-- Soundness: everything the iteration collects reaches the target. -/
theorem iter_sound {E : Type} (g : PodGraph E) (t : Nat) :
    ∀ k x, x ∈ (expand g)^[k] [t] → Reaches g x t := by
  intro k
  induction k with
  | zero =>
      intro x hx
      simp only [Function.iterate_zero, id] at hx
      rcases List.mem_singleton.mp hx with rfl
      exact Relation.ReflTransGen.refl
  | succ k ih =>
      intro x hx
      rw [Function.iterate_succ_apply', mem_expand_iff] at hx
      obtain ⟨-, h2 | ⟨j, hj, hstep⟩⟩ := hx
      · exact ih x h2
      · exact Relation.ReflTransGen.head hstep (ih j hj)

/-- In a well-formed graph every edge relates in-range indices. -/
theorem stepB_lt {E : Type} (g : PodGraph E) (hWF : g.WF) {a b : Nat}
    (h : stepB g a b = true) :
    a < g.nodes.length ∧ b < g.nodes.length := by
  rcases List.any_eq_true.mp h with ⟨e, he, hpred⟩
  have hwf := hWF e he
  simp only [Bool.and_eq_true, beq_iff_eq] at hpred
  omega

/-- Completeness, first half: a node that reaches the target appears in some
iterate. -/
theorem reaches_exists_iter {E : Type} (g : PodGraph E) (t : Nat) (hWF : g.WF)
    {a : Nat} (h : Reaches g a t) : ∃ k, a ∈ (expand g)^[k] [t] := by
  induction h using Relation.ReflTransGen.head_induction_on with
  | refl => exact ⟨0, by simp⟩
  | head hstep hrest ih =>
      obtain ⟨k, hk⟩ := ih
      refine ⟨k + 1, ?_⟩
      rw [Function.iterate_succ_apply', mem_expand_iff]
      exact ⟨(stepB_lt g hWF hstep).1, Or.inr ⟨_, hk, hstep⟩⟩

/-- Once one iterate adds nothing new, all later iterates agree with it. -/
theorem iter_stab {E : Type} (g : PodGraph E) (t : Nat) (j : Nat)
    (hj : ∀ x, x ∈ (expand g)^[j] [t] ↔ x ∈ (expand g)^[j + 1] [t]) :
    ∀ m, j ≤ m → ∀ x, x ∈ (expand g)^[m] [t] ↔ x ∈ (expand g)^[j] [t] := by
  intro m hm
  induction hm with
  | refl => exact fun x => Iff.rfl
  | step hm ih =>
      intro x
      rw [Function.iterate_succ_apply']
      have h1 := expand_congr g _ _ ih x
      have h2 : expand g ((expand g)^[j] [t]) = (expand g)^[j + 1] [t] :=
        (Function.iterate_succ_apply' (expand g) j [t]).symm
      exact (h1.trans (h2 ▸ Iff.rfl)).trans ((hj x).symm)

/-- Pigeonhole: within `nodes.length + 1` steps some iterate stalls. -/
theorem exists_stall {E : Type} (g : PodGraph E) (t : Nat)
    (ht : t < g.nodes.length) :
    ∃ j, j ≤ g.nodes.length ∧
      ∀ x, x ∈ (expand g)^[j] [t] ↔ x ∈ (expand g)^[j + 1] [t] := by
  by_contra hcon
  push_neg at hcon
  have hsub : ∀ j, j ≤ g.nodes.length →
      ((expand g)^[j] [t]).toFinset ⊂ ((expand g)^[j + 1] [t]).toFinset := by
    intro j hjle
    obtain ⟨x, hx⟩ := hcon j hjle
    have hsubset : ((expand g)^[j] [t]).toFinset ⊆ ((expand g)^[j + 1] [t]).toFinset := by
      intro y hy
      rw [List.mem_toFinset] at hy ⊢
      exact iter_subset_succ g t ht j y hy
    rw [Finset.ssubset_def]
    refine ⟨hsubset, fun hback => ?_⟩
    rcases hx with ⟨h1, h2⟩ | ⟨h1, h2⟩
    · exact h2 (iter_subset_succ g t ht j x h1)
    · exact h1 (List.mem_toFinset.mp (hback (List.mem_toFinset.mpr h2)))
  have hcard : ∀ j, j ≤ g.nodes.length + 1 → j ≤ ((expand g)^[j] [t]).toFinset.card := by
    intro j
    induction j with
    | zero => intro _; exact Nat.zero_le _
    | succ j ih =>
        intro hj
        have h1 := hsub j (by omega)
        have h2 := ih (by omega)
        have h3 := Finset.card_lt_card h1
        omega
  have hrange : ((expand g)^[g.nodes.length + 1] [t]).toFinset ⊆
      Finset.range g.nodes.length := by
    intro x hx
    rw [List.mem_toFinset, Function.iterate_succ_apply', mem_expand_iff] at hx
    exact Finset.mem_range.mpr hx.1
  have h1 := hcard (g.nodes.length + 1) (by omega)
  have h2 := Finset.card_le_card hrange
  rw [Finset.card_range] at h2
  omega

/-- The fueled search decides reachability on well-formed graphs. -/
theorem hasPathB_iff_reaches {E : Type} (g : PodGraph E) (t : Nat) (hWF : g.WF)
    (ht : t < g.nodes.length) (a : Nat) :
    hasPathB g a t = true ↔ Reaches g a t := by
  unfold hasPathB
  rw [Bool.or_eq_true]
  constructor
  · rintro (hab | hmem)
    · obtain rfl := eq_of_beq hab
      exact Relation.ReflTransGen.refl
    · exact iter_sound g t g.nodes.length a (List.elem_iff.mp hmem)
  · intro hr
    by_cases hat : a = t
    · subst hat
      left
      simp
    · right
      obtain ⟨k, hk⟩ := reaches_exists_iter g t hWF hr
      obtain ⟨j, hjle, hj⟩ := exists_stall g t ht
      have hmem : a ∈ (expand g)^[g.nodes.length] [t] := by
        rcases le_or_lt k g.nodes.length with hkle | hkgt
        · exact iter_subset_le g t ht k _ hkle a hk
        · have h1 : a ∈ (expand g)^[j] [t] := (iter_stab g t j hj k (by omega) a).mp hk
          exact iter_subset_le g t ht j _ hjle a h1
      exact List.elem_iff.mpr hmem

/-- C6: `nodes_that_can_reach` returns the empty set when no node name
contains the substring; otherwise the target is the first matching node (in
index order) and the result is exactly the set of in-range nodes with a
directed path to the target — which always includes the target itself. -/
theorem nodes_that_can_reach_spec {E : Type} (g : PodGraph E) (sub : String)
    (hWF : g.WF) :
    ((∀ c ∈ g.nodes, strContains c.name sub = false) →
      g.nodes_that_can_reach sub = []) ∧
    (∀ target,
      (List.range g.nodes.length).find?
          (fun n => strContains (g.nodes.getD n ⟨"", 0, []⟩).name sub) =
        some target →
      (∀ n, n ∈ g.nodes_that_can_reach sub ↔
          n < g.nodes.length ∧ Reaches g n target) ∧
      target ∈ g.nodes_that_can_reach sub) := by
  constructor
  · intro hno
    unfold PodGraph.nodes_that_can_reach
    have hf : (List.range g.nodes.length).find?
        (fun n => strContains (g.nodes.getD n ⟨"", 0, []⟩).name sub) = none := by
      apply List.find?_eq_none.mpr
      intro n hn
      rw [List.mem_range] at hn
      rw [List.getD_eq_get?, List.get?_eq_get hn, Option.getD_some,
        hno _ (List.get_mem g.nodes n hn)]
      simp
    rw [hf]
  · intro target htgt
    have htlt : target < g.nodes.length := by
      have hmem := List.mem_of_find?_eq_some htgt
      simpa using hmem
    have hresult : g.nodes_that_can_reach sub =
        (List.range g.nodes.length).filter (fun n => hasPathB g n target) := by
      unfold PodGraph.nodes_that_can_reach
      rw [htgt]
    constructor
    · intro n
      rw [hresult, List.mem_filter, List.mem_range]
      exact and_congr_right fun _ => hasPathB_iff_reaches g target hWF htlt n
    · rw [hresult, List.mem_filter, List.mem_range]
      exact ⟨htlt,
        (hasPathB_iff_reaches g target hWF htlt target).mpr
          Relation.ReflTransGen.refl⟩

/-- C6 (witness): in a two-card graph with the edge `0 → 1`, the substring
`"Chief"` selects node 1 as target and node 1 reaches itself. -/
theorem nodes_that_can_reach_spec_witness :
    (List.range ((PodGraph.new.add_card BirthingPod.check ⟨"Matron", 2, []⟩).add_card
        BirthingPod.check ⟨"Chieftain", 3, []⟩).nodes.length).find?
      (fun n => strContains
        (((PodGraph.new.add_card BirthingPod.check ⟨"Matron", 2, []⟩).add_card
          BirthingPod.check ⟨"Chieftain", 3, []⟩).nodes.getD n ⟨"", 0, []⟩).name
        "Chief") = some 1 ∧
    1 ∈ ((PodGraph.new.add_card BirthingPod.check ⟨"Matron", 2, []⟩).add_card
        BirthingPod.check ⟨"Chieftain", 3, []⟩).nodes_that_can_reach "Chief" := by
  constructor
  · decide
  · exact ((nodes_that_can_reach_spec
      ((PodGraph.new.add_card BirthingPod.check ⟨"Matron", 2, []⟩).add_card
        BirthingPod.check ⟨"Chieftain", 3, []⟩) "Chief" (by decide)).2 1
      (by decide)).2

/-- C8 (counterexample): the cluster sections of `to_img` are emitted in the
iteration order of a freshly built `std::collections::HashMap`, which is
unspecified (seed-dependent) — both `[2, 3]` and `[3, 2]` are permutations of
the cost-key set of a two-cost graph, and the two orders produce different
output texts, so the output is not a function of the graph and highlight
target alone. -/
theorem to_img_cluster_order_matters :
    ([2, 3] : List Nat).Perm
      (cmcKeys ((PodGraph.new.add_card BirthingPod.check ⟨"A", 2, []⟩).add_card
        BirthingPod.check ⟨"B", 3, []⟩)) ∧
    ([3, 2] : List Nat).Perm
      (cmcKeys ((PodGraph.new.add_card BirthingPod.check ⟨"A", 2, []⟩).add_card
        BirthingPod.check ⟨"B", 3, []⟩)) ∧
    ((PodGraph.new.add_card BirthingPod.check ⟨"A", 2, []⟩).add_card
        BirthingPod.check ⟨"B", 3, []⟩).to_img (fun _ => "") none [2, 3] ≠
      ((PodGraph.new.add_card BirthingPod.check ⟨"A", 2, []⟩).add_card
        BirthingPod.check ⟨"B", 3, []⟩).to_img (fun _ => "") none [3, 2] := by
  refine ⟨by decide, by decide, by decide⟩

/-- C8 (amended): rendering is deterministic given the cluster iteration
order, and two renders over permuted orders differ only by a permutation of
the per-cost cluster blocks: the header, each block's content, and the whole
edge section (with its first-seen color assignment) are functions of the
graph and highlight target alone. -/
theorem to_img_deterministic_up_to_cluster_order {E : Type} [DecidableEq E]
    (g : PodGraph E) (disp : E → String) (hl : Option String)
    (o1 o2 : List Nat) (h : o1.Perm o2) :
    ∃ bs1 bs2 : List String, bs1.Perm bs2 ∧
      g.to_img disp hl o1 =
        "digraph \x7b\n    node [colorscheme=spectral11]\nedge [colorscheme=dark28]\n"
          ++ String.join bs1
          ++ renderEdgesAux disp (hl.map (fun name => g.nodes_that_can_reach name))
              g.edges []
          ++ "\x7d" ∧
      g.to_img disp hl o2 =
        "digraph \x7b\n    node [colorscheme=spectral11]\nedge [colorscheme=dark28]\n"
          ++ String.join bs2
          ++ renderEdgesAux disp (hl.map (fun name => g.nodes_that_can_reach name))
              g.edges []
          ++ "\x7d" :=
  ⟨o1.map (clusterBlock g (hl.map (fun name => g.nodes_that_can_reach name))),
   o2.map (clusterBlock g (hl.map (fun name => g.nodes_that_can_reach name))),
   h.map _, rfl, rfl⟩

/-- C8 (witness): the amended statement applied to the two-cost graph and the
orders `[2, 3]` and `[3, 2]`. -/
theorem to_img_deterministic_up_to_cluster_order_witness :
    ([2, 3] : List Nat).Perm [3, 2] ∧
    (∃ bs1 bs2 : List String, bs1.Perm bs2 ∧
      ((PodGraph.new.add_card BirthingPod.check ⟨"A", 2, []⟩).add_card
          BirthingPod.check ⟨"B", 3, []⟩).to_img (fun _ => "") none [2, 3] =
        "digraph \x7b\n    node [colorscheme=spectral11]\nedge [colorscheme=dark28]\n"
          ++ String.join bs1
          ++ renderEdgesAux (fun _ => "")
              ((none : Option String).map (fun name =>
                ((PodGraph.new.add_card BirthingPod.check ⟨"A", 2, []⟩).add_card
                  BirthingPod.check ⟨"B", 3, []⟩).nodes_that_can_reach name))
              ((PodGraph.new.add_card BirthingPod.check ⟨"A", 2, []⟩).add_card
                BirthingPod.check ⟨"B", 3, []⟩).edges []
          ++ "\x7d" ∧
      ((PodGraph.new.add_card BirthingPod.check ⟨"A", 2, []⟩).add_card
          BirthingPod.check ⟨"B", 3, []⟩).to_img (fun _ => "") none [3, 2] =
        "digraph \x7b\n    node [colorscheme=spectral11]\nedge [colorscheme=dark28]\n"
          ++ String.join bs2
          ++ renderEdgesAux (fun _ => "")
              ((none : Option String).map (fun name =>
                ((PodGraph.new.add_card BirthingPod.check ⟨"A", 2, []⟩).add_card
                  BirthingPod.check ⟨"B", 3, []⟩).nodes_that_can_reach name))
              ((PodGraph.new.add_card BirthingPod.check ⟨"A", 2, []⟩).add_card
                BirthingPod.check ⟨"B", 3, []⟩).edges []
          ++ "\x7d") :=
  ⟨by decide,
    to_img_deterministic_up_to_cluster_order
      ((PodGraph.new.add_card BirthingPod.check ⟨"A", 2, []⟩).add_card
        BirthingPod.check ⟨"B", 3, []⟩) (fun _ => "") none [2, 3] [3, 2]
      (by decide)⟩
